import Mathlib

/-!
Shallow embedding of the QuantC sharded encrypted file-transfer code.

Byte strings are modelled as `List Nat` (every entry of a JS `Uint8Array` is a
byte `< 256`; where a fact needs this bound it is a hypothesis).  JS strings
that the code only passes around (passwords, retrieval codes, names) are Lean
`String`s; the hex-encoded salt is kept as the list of its character codes so
that the repo's own `bytesToHex`/`hexToBytes` pair can be modelled exactly.

External primitives (Web Crypto PBKDF2/AES-GCM, Node `crypto` pbkdf2/AES-CBC
block cipher, bcrypt) are not code of this repository: the embedding is
parameterized over them (`SubtleCrypto`, `kdf`, the block cipher `E`/`D`,
`bhash`/`bcompare`), and each theorem states exactly the contract it assumes
of them.  Randomness (salts, IVs, `Math.random()` draws, transport outcomes)
is passed in as explicit arguments or streams.

Effects are made explicit: Cloudinary blob storage is a `List (List Nat)`
(a locator is the index of a stored blob), the Mongo `File` collection is a
`List Manifest`, and the retrieval loop additionally returns the trace of
fetches it performed (with the cache mode used) and of the wire buffers it
handed to `decrypt`, so that temporal claims ("before any shard is fetched")
are statable.
-/

/-- The deployed shard size: `const SHARD_SIZE = 9 * 1024 * 1024` (part_002,
part_004). -/
def SHARD_SIZE : Nat := 9 * 1024 * 1024

/-- Fuel-indexed worker for the client chunking loop
`for (let start = 0; start < file.size; start += SHARD_SIZE)` with
`file.slice(start, min(start + SHARD_SIZE, size))` (part_002 lines 247-251,
part_004 lines 71-75).  `slice`'s clamping is `take`; advancing `start` is
`drop`.  One fuel unit is spent per emitted chunk; `P.length` units suffice
whenever `0 < S` (for `S = 0` the JS loop does not terminate; the model
returns `[]` once fuel runs out, and no claim uses `S = 0`). -/
def chunksOfAux (S : Nat) : Nat → List Nat → List (List Nat)
  | 0, _ => []
  | _, [] => []
  | fuel + 1, p :: rest => ((p :: rest).take S) :: chunksOfAux S fuel ((p :: rest).drop S)

/-- The chunking loop itself: the ordered list of plaintext chunks the client
slices out of the file. -/
def chunksOf (S : Nat) (P : List Nat) : List (List Nat) :=
  chunksOfAux S P.length P

/-- Math.ceil(file.size / SHARD_SIZE) — `totalShards` in the upload handler. -/
def totalShards (size : Nat) : Nat :=
  (size + SHARD_SIZE - 1) / SHARD_SIZE

/-- One output character (as its code) of `b.toString(16).padStart(2, '0')`:
the digit `n < 16` rendered in lowercase hex. -/
def hexDigitChar (n : Nat) : Nat :=
  if n < 10 then 48 + n else 87 + n

/-- Client helper `bytesToHex` (part_002): each byte of a `Uint8Array`
(`b < 256`) becomes two lowercase hex characters, high nibble first. -/
def bytesToHex : List Nat → List Nat
  | [] => []
  | b :: bs => hexDigitChar (b / 16) :: hexDigitChar (b % 16) :: bytesToHex bs

/-- `parseInt` of one hex character code: `0-9`, `a-f`, `A-F`; other input
never occurs on hex produced by `bytesToHex`. -/
def hexDigitVal (c : Nat) : Nat :=
  if 48 ≤ c ∧ c ≤ 57 then c - 48
  else if 97 ≤ c ∧ c ≤ 102 then c - 87
  else if 65 ≤ c ∧ c ≤ 70 then c - 55
  else 0

/-- Client helper `hexToBytes` (part_002): `hex.match(/.{1,2}/g)` splits the
string into pairs (a lone trailing character forms its own group) and each
group is `parseInt(group, 16)`. -/
def hexToBytes : List Nat → List Nat
  | c1 :: c2 :: rest => (hexDigitVal c1 * 16 + hexDigitVal c2) :: hexToBytes rest
  | [c] => [hexDigitVal c]
  | [] => []

/-- Interface to the Web Crypto operations the client calls
(`deriveKey` = PBKDF2-SHA256, 100000 iterations, 256-bit AES-GCM key;
`encryptGCM key iv plain` = `crypto.subtle.encrypt({name:"AES-GCM", iv}, …)`
returning ciphertext with the 16-byte tag appended;
`decryptGCM key iv data` = `crypto.subtle.decrypt`, `none` when the promise
rejects).  These are platform primitives, external to the repository, so the
pipeline is stated over an arbitrary implementation. -/
structure SubtleCrypto where
  deriveKey : String → List Nat → List Nat
  encryptGCM : List Nat → List Nat → List Nat → List Nat
  decryptGCM : List Nat → List Nat → List Nat → Option (List Nat)

/-- The per-shard wire body assembled by the upload loop (part_002 lines
257-265): `combinedBuffer` holds the 12-byte IV followed by the AES-GCM
output (`ciphertext || tag`). -/
def encryptShardBody (c : SubtleCrypto) (key iv chunk : List Nat) : List Nat :=
  iv ++ c.encryptGCM key iv chunk

/-- Errors the upload path surfaces: `shardFailed i` is the throw of
`Shard i failed to return a URL` / the transport error rethrown after the
retry budget; `saveFailed` is the client's "Save Failed" branch. -/
inductive UploadError where
  | shardFailed (i : Nat)
  | saveFailed
deriving DecidableEq

/-- Errors the retrieval path surfaces, one per throw site: the server's 404
("File not found or expired") and 401 ("Wrong password") forwarded by the
client, and the client's own "Shard i download failed", "Shard i is empty"
and "Wrong Password or Data Corrupt" throws. -/
inductive RetrieveError where
  | notFound
  | wrongPassword
  | downloadFailed (i : Nat)
  | emptyShard (i : Nat)
  | integrity
deriving DecidableEq

/-- The `cache` mode a `fetch` call runs with: part_002 passes
`{ cache: "no-store" }`, part_004's proxy fetch passes no options and so runs
with the default cache mode. -/
inductive CacheMode where
  | noStore
  | defaultCache
deriving DecidableEq

/-- `uploadShardWithRetry` (part_002 lines 322-334).  The transport is
abstracted to the outcome of each attempt: `ok k` tells whether the `k`-th
XHR to Cloudinary would succeed.  Returns which attempt succeeded (`none`
after the budget is spent: the source rethrows) paired with the total
milliseconds slept — the source sleeps `1000` ms before each retry
(`await new Promise(r => setTimeout(r, 1000))`), and is called with the
default budget `retries = 3`. -/
def uploadShardWithRetry (ok : Nat → Bool) (attempt : Nat) : Nat → Option Nat × Nat
  | 0 => if ok attempt then (some attempt, 0) else (none, 0)
  | r + 1 =>
    if ok attempt then (some attempt, 0)
    else
      let res := uploadShardWithRetry ok (attempt + 1) r
      (res.1, 1000 + res.2)

/-- The per-shard encrypt-and-upload loop body of the upload handler
(part_002 lines 246-282), iterated over the chunks: build
`iv ++ encrypted` with a fresh IV (`ivs i` models
`getRandomValues(new Uint8Array(12))` for shard `i`), upload it with the
retry wrapper (`outs i k` = outcome of attempt `k` for shard `i`), push the
returned locator onto `uploadedUrls`, and abort the whole loop by throwing
`Shard (i+1) failed` when the retries are spent.  A successful upload appends
the body to the Cloudinary store and its locator is its index there; failed
attempts store nothing.  Returns the store as left behind (shards uploaded
before an abort stay stored — the source never deletes them) and either the
ordered locator list or the first error. -/
def uploadShards (c : SubtleCrypto) (key : List Nat) (ivs : Nat → List Nat)
    (outs : Nat → Nat → Bool) :
    List (List Nat) → Nat → List (List Nat) → List (List Nat) × Except UploadError (List Nat)
  | [], _, blobs => (blobs, .ok [])
  | ch :: rest, i, blobs =>
    let body := encryptShardBody c key (ivs i) ch
    match (uploadShardWithRetry (outs i) 0 3).1 with
    | none => (blobs, .error (.shardFailed (i + 1)))
    | some _ =>
      let res := uploadShards c key ivs outs rest (i + 1) (blobs ++ [body])
      (res.1, res.2.map (fun urls => blobs.length :: urls))

/-- The persisted `File` document of the sharded iteration (part_002 schema):
`code`, `passwordHash` (bcrypt), `parts` (ordered Cloudinary locators),
`originalName`, `mimeType`, `salt` (hex string, kept as character codes) and
the literal `iv: "sharded"` marker.  `expiresAt` plays no part in any claim
and is omitted. -/
structure Manifest where
  code : String
  passwordHash : String
  parts : List Nat
  originalName : String
  mimeType : String
  salt : List Nat
  iv : String
deriving DecidableEq

/-- `generateCode` / the code expression of `finalize-upload`:
`String(Math.floor(100000 + Math.random() * 900000))`.  The random draw is
modelled by `r`: as `r` ranges over `Nat`, `100000 + r % 900000` ranges over
exactly the six-digit values `100000..999999` that
`Math.floor(100000 + Math.random() * 900000)` can produce. -/
def generateCode (r : Nat) : String :=
  toString (100000 + r % 900000)

/-- The uniqueness loop of `finalize-upload` (part_002 lines 124-130) and of
the server.js upload route: draw a code, keep redrawing while
`File.exists({code})`.  The stream of `Math.random()` draws is the list `rs`;
`none` models an exhausted stream (the source loops forever, so any run that
returns at all returns a fresh code). -/
def pickCode (files : List Manifest) : List Nat → Option String
  | [] => none
  | r :: rest =>
    let code := generateCode r
    if files.any (fun m => m.code == code) then pickCode files rest else some code

/-- The shared persistent state: the Mongo `File` collection and the
Cloudinary blob store (a locator is an index into `blobs`). -/
structure ServerState where
  files : List Manifest
  blobs : List (List Nat)
deriving DecidableEq

/-- The end-to-end upload sequence of part_002 after the form validation
(steps 2-4 of the submit handler composed with the `finalize-upload` route):
derive the key from the password and the fresh 16-byte `fileSalt`, run the
shard loop, and only if every shard uploaded, pick a unique code, hash the
password and create the manifest (salt persisted as hex, `iv: "sharded"`).
Returns the new state and the code, or the state as the failure left it —
on any error the `File` collection is untouched because `finalize-upload`
was never reached. -/
def uploadRun (c : SubtleCrypto) (bhash : String → String) (ivs : Nat → List Nat)
    (outs : Nat → Nat → Bool) (rs : List Nat) (fileSalt : List Nat)
    (pw name mime : String) (P : List Nat) (st : ServerState) :
    ServerState × Except UploadError String :=
  let key := c.deriveKey pw fileSalt
  let res := uploadShards c key ivs outs (chunksOf SHARD_SIZE P) 0 st.blobs
  match res.2 with
  | .error e => ({ files := st.files, blobs := res.1 }, .error e)
  | .ok urls =>
    match pickCode st.files rs with
    | none => ({ files := st.files, blobs := res.1 }, .error .saveFailed)
    | some code =>
      ({ files := { code := code, passwordHash := bhash pw, parts := urls,
                    originalName := name, mimeType := mime,
                    salt := bytesToHex fileSalt, iv := "sharded" } :: st.files,
         blobs := res.1 }, .ok code)

/-- The body of the retrieval loop for one shard (part_002 lines 396-422),
applied to the outcome of the fetch: a failed fetch (`!res.ok`, modelled
`none`) throws "download failed"; a zero-byte body throws "is empty" before
any cryptography runs; otherwise the first 12 bytes are taken as the IV, the
remainder as ciphertext+tag, and a rejected `decrypt` is caught and rethrown
as "Wrong Password or Data Corrupt" (`integrity`).  `i` is the 1-based shard
number used in the messages. -/
def decryptShardStep (c : SubtleCrypto) (key : List Nat) (i : Nat)
    (fetched : Option (List Nat)) : Except RetrieveError (List Nat) :=
  match fetched with
  | none => .error (.downloadFailed i)
  | some buf =>
    if buf.length = 0 then .error (.emptyShard i)
    else
      match c.decryptGCM key (buf.take 12) (buf.drop 12) with
      | none => .error .integrity
      | some p => .ok p

/-- The retrieval loop of part_002 (lines 395-424): fetch each locator in
manifest order with `{ cache: "no-store" }` and run the shard step, stopping
at the first error.  Besides the list of decrypted shards it returns the
trace of fetches performed (with the cache mode each used) and the trace of
wire buffers handed to `crypto.subtle.decrypt`, so that ordering claims are
statable.  `i` is the 0-based loop index. -/
def decryptLoop (c : SubtleCrypto) (key : List Nat)
    (store : CacheMode → Nat → Option (List Nat)) :
    List Nat → Nat →
    Except RetrieveError (List (List Nat)) × List (CacheMode × Nat) × List (List Nat)
  | [], _ => (.ok [], [], [])
  | u :: rest, i =>
    match store .noStore u with
    | none => (.error (.downloadFailed (i + 1)), [(.noStore, u)], [])
    | some buf =>
      if buf.length = 0 then (.error (.emptyShard (i + 1)), [(.noStore, u)], [])
      else
        match c.decryptGCM key (buf.take 12) (buf.drop 12) with
        | none => (.error .integrity, [(.noStore, u)], [buf])
        | some p =>
          let r := decryptLoop c key store rest (i + 1)
          (r.1.map (fun ps => p :: ps), (.noStore, u) :: r.2.1, buf :: r.2.2)

/-- The end-to-end retrieval sequence of part_002: the `retrieve-meta` route
(find the manifest by code — 404 otherwise — then `bcrypt.compare` the
password against the stored hash — 401 otherwise) composed with the client's
retrieve handler, which throws on a non-success response before deriving the
key or touching any shard, then re-derives the key from
`hexToBytes(meta.salt)` and runs the shard loop, concatenating the decrypted
shards in order (`new Blob(decryptedShards)`).  Returns the result together
with the fetch and decrypt traces of the shard loop (both empty when the
gate failed). -/
def retrieveRun (c : SubtleCrypto) (bcompare : String → String → Bool)
    (files : List Manifest) (store : CacheMode → Nat → Option (List Nat))
    (code pw : String) :
    Except RetrieveError (List Nat) × List (CacheMode × Nat) × List (List Nat) :=
  match files.find? (fun m => m.code == code) with
  | none => (.error .notFound, [], [])
  | some m =>
    if bcompare pw m.passwordHash then
      let key := c.deriveKey pw (hexToBytes m.salt)
      let r := decryptLoop c key store m.parts 0
      (r.1.map List.flatten, r.2.1, r.2.2)
    else (.error .wrongPassword, [], [])

/-- The `File` document of the part_001 iteration (whole-file upload):
`code`, `passwordHash`, `cloudinaryUrl`, `cloudinaryPublicId`,
`originalName`. -/
structure FileRecordV1 where
  code : String
  passwordHash : String
  cloudinaryUrl : String
  cloudinaryPublicId : String
  originalName : String
deriving DecidableEq

/-- The save step of part_001's upload route (lines 116-129):
`const code = generateCode();` — the comment there reads
"(Add collision check loop from your original code here)" but no check is
performed — followed directly by `new File({...}).save()`.  The new record
is inserted whether or not `code` already names an existing one. -/
def uploadCommitV1 (bhash : String → String) (r : Nat) (pw url pubId name : String)
    (files : List FileRecordV1) : List FileRecordV1 :=
  { code := generateCode r, passwordHash := bhash pw, cloudinaryUrl := url,
    cloudinaryPublicId := pubId, originalName := name } :: files

/-- The retrieval loop of the part_004 iteration (lines 183-205): each shard
is fetched through the `/api/proxy` route by a `fetch(proxyUrl)` carrying no
options — so the default cache mode — and the body goes straight to IV
extraction and `decrypt`: there is no zero-length check.  Traces as in
`decryptLoop`. -/
def decryptLoopV4 (c : SubtleCrypto) (key : List Nat)
    (store : CacheMode → Nat → Option (List Nat)) :
    List Nat → Nat →
    Except RetrieveError (List (List Nat)) × List (CacheMode × Nat) × List (List Nat)
  | [], _ => (.ok [], [], [])
  | u :: rest, i =>
    match store .defaultCache u with
    | none => (.error (.downloadFailed (i + 1)), [(.defaultCache, u)], [])
    | some buf =>
      match c.decryptGCM key (buf.take 12) (buf.drop 12) with
      | none => (.error .integrity, [(.defaultCache, u)], [buf])
      | some p =>
        let r := decryptLoopV4 c key store rest (i + 1)
        (r.1.map (fun ps => p :: ps), (.defaultCache, u) :: r.2.1, buf :: r.2.2)

/-- Bytewise XOR, the block combiner of CBC mode. -/
def xorBytes (a b : List Nat) : List Nat :=
  List.zipWith (fun x y => x ^^^ y) a b

/-- PKCS#7 padding to the 16-byte AES block, as OpenSSL applies it inside
`createCipheriv('aes-256-cbc', …)`: append `n = 16 - len % 16` copies of the
byte `n` (a full extra block when the length is already a multiple). -/
def pkcs7pad (p : List Nat) : List Nat :=
  let n := 16 - p.length % 16
  p ++ List.replicate n n

/-- PKCS#7 unpadding with OpenSSL's validation (`decipher.final()` throws on
bad padding): the last byte `n` must satisfy `1 ≤ n ≤ 16`, fit in the data,
and the last `n` bytes must all equal `n`; then they are stripped. -/
def pkcs7unpad (p : List Nat) : Option (List Nat) :=
  let n := p.getLastD 0
  if 1 ≤ n ∧ n ≤ 16 ∧ n ≤ p.length ∧ (p.drop (p.length - n)).all (fun b => b == n)
  then some (p.take (p.length - n)) else none

/-- CBC encryption chaining: each plaintext block is XORed with the previous
ciphertext block (initially the IV) and put through the block cipher `E`. -/
def cbcEncBlocks (E : List Nat → List Nat) : List Nat → List (List Nat) → List (List Nat)
  | _, [] => []
  | prev, blk :: rest =>
    let cblk := E (xorBytes blk prev)
    cblk :: cbcEncBlocks E cblk rest

/-- CBC decryption chaining: each ciphertext block goes through `D` and is
XORed with the previous ciphertext block (initially the IV). -/
def cbcDecBlocks (D : List Nat → List Nat) : List Nat → List (List Nat) → List (List Nat)
  | _, [] => []
  | prev, cblk :: rest => xorBytes (D cblk) prev :: cbcDecBlocks D cblk rest

/-- `aes-256-cbc` encryption over an abstract 16-byte block cipher `E`:
pad, split into 16-byte blocks, chain. -/
def cbcEncrypt (E : List Nat → List Nat) (iv p : List Nat) : List Nat :=
  (cbcEncBlocks E iv (chunksOf 16 (pkcs7pad p))).flatten

/-- `aes-256-cbc` decryption: the ciphertext length must be a whole number of
blocks (OpenSSL throws otherwise), then unchain and unpad.  CBC is not
authenticated: no check beyond the padding bytes is made. -/
def cbcDecrypt (D : List Nat → List Nat) (iv ct : List Nat) : Option (List Nat) :=
  if ct.length % 16 = 0 then pkcs7unpad (cbcDecBlocks D iv (chunksOf 16 ct)).flatten
  else none

namespace Server

/-- server.js `encrypt` (lines 66-72): draw a 64-byte salt and 16-byte IV
(passed in here), derive the key with
`pbkdf2Sync(password, salt, 100000, 32, 'sha512')` (the KDF is the external
parameter `kdf`, applied to exactly those arguments), CBC-encrypt, and emit
`salt || iv || ciphertext`. -/
def encrypt (E : List Nat → List Nat → List Nat)
    (kdf : String → List Nat → Nat → Nat → List Nat)
    (pw : String) (salt iv buffer : List Nat) : List Nat :=
  let key := kdf pw salt 100000 32
  salt ++ iv ++ cbcEncrypt (E key) iv buffer

/-- server.js `decrypt` (lines 74-81): `subarray(0, 64)` is the salt,
`subarray(64, 80)` the IV, `subarray(80)` the ciphertext; the key is
re-derived from the embedded salt with the same KDF arguments and the CBC
cipher inverted.  `none` models the throw of `decipher.final()`. -/
def decrypt (D : List Nat → List Nat → List Nat)
    (kdf : String → List Nat → Nat → Nat → List Nat)
    (pw : String) (buffer : List Nat) : Option (List Nat) :=
  let salt := buffer.take 64
  let iv := (buffer.drop 64).take 16
  let encrypted := buffer.drop 80
  let key := kdf pw salt 100000 32
  cbcDecrypt (D key) iv encrypted

end Server

/-- Toy key derivation standing in for PBKDF2 in concrete witnesses (any
deterministic function is admissible for the pipeline theorems). -/
def toyKey (pw : String) (salt : List Nat) : List Nat :=
  pw.length :: salt

/-- Toy AEAD used only to instantiate the abstract `SubtleCrypto` in
witnesses: ciphertext is the plaintext followed by one checksum byte over
key, IV and plaintext. -/
def toyEncGCM (key iv p : List Nat) : List Nat :=
  p ++ [(key.sum + iv.sum + p.sum) % 256]

/-- Toy AEAD decryption: accepts exactly the outputs of `toyEncGCM` for the
same key and IV. -/
def toyDecGCM (key iv w : List Nat) : Option (List Nat) :=
  if w = [] then none
  else if w.getLastD 0 = (key.sum + iv.sum + w.dropLast.sum) % 256 then some w.dropLast
  else none

/-- Concrete `SubtleCrypto` instance for witnesses. -/
def toySubtle : SubtleCrypto :=
  { deriveKey := toyKey, encryptGCM := toyEncGCM, decryptGCM := toyDecGCM }

/-- Toy password hash (bcrypt stand-in) for witnesses. -/
def toyHash (pw : String) : String := pw

/-- Toy hash verification (bcrypt.compare stand-in) for witnesses. -/
def toyCompare (pw h : String) : Bool := pw == h

/-- Identity block cipher: a legitimate instantiation of the abstract
16-byte block cipher parameter of the CBC embedding. -/
def idBlockCipher (_key b : List Nat) : List Nat := b

/-- Toy KDF for the server-side codec witnesses. -/
def toyKdf (pw : String) (salt : List Nat) (_iter _keylen : Nat) : List Nat :=
  pw.length :: salt
/-! ### Chunking lemmas -/

theorem chunksOfAux_congr (S : Nat) (hS : S ≠ 0) :
    ∀ (n : Nat) (P : List Nat) (f1 f2 : Nat), P.length ≤ n →
      P.length ≤ f1 → P.length ≤ f2 → chunksOfAux S f1 P = chunksOfAux S f2 P := by
  intro n
  induction n with
  | zero =>
    intro P f1 f2 hn _ _
    have : P = [] := List.eq_nil_of_length_eq_zero (Nat.le_zero.mp hn)
    subst this
    cases f1 <;> cases f2 <;> rfl
  | succ n ih =>
    intro P f1 f2 hn h1 h2
    match P, f1, f2 with
    | [], f1, f2 => cases f1 <;> cases f2 <;> rfl
    | p :: rest, g1 + 1, g2 + 1 =>
      simp only [chunksOfAux]
      congr 1
      apply ih
      · simp only [List.length_drop, List.length_cons] at *; omega
      · simp only [List.length_drop, List.length_cons] at *; omega
      · simp only [List.length_drop, List.length_cons] at *; omega

theorem chunksOf_nil (S : Nat) : chunksOf S [] = [] := rfl

theorem chunksOf_cons (S : Nat) (hS : S ≠ 0) (P : List Nat) (hP : P ≠ []) :
    chunksOf S P = P.take S :: chunksOf S (P.drop S) := by
  match P with
  | p :: rest =>
    show chunksOfAux S (rest.length + 1) (p :: rest) = _
    simp only [chunksOfAux]
    congr 1
    apply chunksOfAux_congr S hS ((p :: rest).drop S).length
    · exact Nat.le_refl _
    · simp only [List.length_drop, List.length_cons]; omega
    · exact Nat.le_refl _

theorem chunksOf_flatten_aux (S : Nat) (hS : S ≠ 0) :
    ∀ (n : Nat) (P : List Nat), P.length ≤ n → (chunksOf S P).flatten = P := by
  intro n
  induction n with
  | zero =>
    intro P hP
    have : P = [] := List.eq_nil_of_length_eq_zero (Nat.le_zero.mp hP)
    subst this; rfl
  | succ n ih =>
    intro P hP
    match P with
    | [] => rfl
    | p :: rest =>
      rw [chunksOf_cons S hS _ (by simp)]
      simp only [List.flatten_cons]
      rw [ih ((p :: rest).drop S) (by simp only [List.length_drop, List.length_cons] at *; omega)]
      exact List.take_append_drop S (p :: rest)

theorem chunksOf_flatten (S : Nat) (hS : S ≠ 0) (P : List Nat) :
    (chunksOf S P).flatten = P :=
  chunksOf_flatten_aux S hS P.length P (Nat.le_refl _)

theorem chunksOf_length_aux (S : Nat) (hS : S ≠ 0) :
    ∀ (n : Nat) (P : List Nat), P.length ≤ n → P ≠ [] →
      (chunksOf S P).length = (P.length + S - 1) / S := by
  intro n
  induction n with
  | zero =>
    intro P hP hne
    exact absurd (List.eq_nil_of_length_eq_zero (Nat.le_zero.mp hP)) hne
  | succ n ih =>
    intro P hP hne
    rw [chunksOf_cons S hS _ hne]
    by_cases hle : P.length ≤ S
    · have hdrop : P.drop S = [] := by
        apply List.eq_nil_of_length_eq_zero
        simp only [List.length_drop]; omega
      rw [hdrop, chunksOf_nil]
      have hpos : 0 < P.length := List.length_pos.mpr hne
      simp only [List.length_cons, List.length_nil]
      symm
      apply Nat.div_eq_of_lt_le
      · omega
      · omega
  -- remaining: P.length > S
    · have hdne : P.drop S ≠ [] := by
        intro h
        have := congrArg List.length h
        simp only [List.length_drop, List.length_nil] at this
        omega
      rw [List.length_cons, ih (P.drop S) (by simp only [List.length_drop] at *; omega) hdne]
      simp only [List.length_drop]
      rw [(by omega : P.length - S + S - 1 = P.length - 1),
          (by omega : P.length + S - 1 = (P.length - 1) + S),
          Nat.add_div_right _ (Nat.pos_of_ne_zero hS)]

theorem chunksOf_length (S : Nat) (hS : S ≠ 0) (P : List Nat) (hne : P ≠ []) :
    (chunksOf S P).length = (P.length + S - 1) / S :=
  chunksOf_length_aux S hS P.length P (Nat.le_refl _) hne

theorem chunksOf_mem_aux (S : Nat) (hS : S ≠ 0) :
    ∀ (n : Nat) (P : List Nat), P.length ≤ n →
      ∀ c ∈ chunksOf S P, c ≠ [] ∧ c.length ≤ S := by
  intro n
  induction n with
  | zero =>
    intro P hP c hc
    have : P = [] := List.eq_nil_of_length_eq_zero (Nat.le_zero.mp hP)
    subst this; simp [chunksOf_nil] at hc
  | succ n ih =>
    intro P hP c hc
    match P with
    | [] => simp [chunksOf_nil] at hc
    | p :: rest =>
      rw [chunksOf_cons S hS _ (by simp)] at hc
      rcases List.mem_cons.mp hc with h | h
      · subst h
        constructor
        · have : ((p :: rest).take S).length = min S (p :: rest).length := List.length_take ..
          intro hnil
          rw [hnil] at this
          simp only [List.length_nil, List.length_cons] at this
          omega
        · rw [List.length_take]; omega
      · exact ih ((p :: rest).drop S)
          (by simp only [List.length_drop, List.length_cons] at *; omega) c h

theorem chunksOf_mem (S : Nat) (hS : S ≠ 0) (P : List Nat) :
    ∀ c ∈ chunksOf S P, c ≠ [] ∧ c.length ≤ S :=
  chunksOf_mem_aux S hS P.length P (Nat.le_refl _)

theorem chunksOf_getD_aux (S : Nat) (hS : S ≠ 0) :
    ∀ (n : Nat) (P : List Nat), P.length ≤ n →
      ∀ i, i + 1 < (chunksOf S P).length → ((chunksOf S P).getD i []).length = S := by
  intro n
  induction n with
  | zero =>
    intro P hP i hi
    have : P = [] := List.eq_nil_of_length_eq_zero (Nat.le_zero.mp hP)
    subst this; simp [chunksOf_nil] at hi
  | succ n ih =>
    intro P hP i hi
    match P with
    | [] => simp [chunksOf_nil] at hi
    | p :: rest =>
      rw [chunksOf_cons S hS _ (by simp)] at hi ⊢
      match i with
      | 0 =>
        simp only [List.getD_cons_zero]
        simp only [List.length_cons] at hi
        have hdrop : chunksOf S ((p :: rest).drop S) ≠ [] := by
          intro h; rw [h] at hi; simp at hi
        have hlen : S < (p :: rest).length := by
          by_contra hle
          push_neg at hle
          have : (p :: rest).drop S = [] := by
            apply List.eq_nil_of_length_eq_zero
            simp only [List.length_drop]; omega
          rw [this, chunksOf_nil] at hdrop
          exact hdrop rfl
        rw [List.length_take]; omega
      | j + 1 =>
        simp only [List.getD_cons_succ]
        apply ih ((p :: rest).drop S)
          (by simp only [List.length_drop, List.length_cons] at *; omega)
        simpa using hi

theorem chunksOf_getD (S : Nat) (hS : S ≠ 0) (P : List Nat) :
    ∀ i, i + 1 < (chunksOf S P).length → ((chunksOf S P).getD i []).length = S :=
  chunksOf_getD_aux S hS P.length P (Nat.le_refl _)
/-! ### Hex encoding lemmas -/

theorem hexDigitVal_hexDigitChar (n : Nat) (h : n < 16) :
    hexDigitVal (hexDigitChar n) = n := by
  unfold hexDigitVal hexDigitChar
  by_cases h10 : n < 10
  · rw [if_pos h10, if_pos (by omega)]
    omega
  · rw [if_neg h10, if_neg (by omega), if_pos (by omega)]
    omega

theorem hexToBytes_bytesToHex (bs : List Nat) (h : ∀ b ∈ bs, b < 256) :
    hexToBytes (bytesToHex bs) = bs := by
  induction bs with
  | nil => rfl
  | cons b rest ih =>
    have hb : b < 256 := h b (List.mem_cons_self ..)
    have hrest : ∀ x ∈ rest, x < 256 := fun x hx => h x (List.mem_cons_of_mem _ hx)
    show hexToBytes (hexDigitChar (b / 16) :: hexDigitChar (b % 16) :: bytesToHex rest) = _
    simp only [hexToBytes]
    rw [hexDigitVal_hexDigitChar _ (by omega), hexDigitVal_hexDigitChar _ (by omega), ih hrest]
    congr 1
    omega

/-! ### Retry wrapper lemmas -/

theorem uploadShardWithRetry_fail (ok : Nat → Bool) :
    ∀ (R a : Nat), (∀ k, a ≤ k → k ≤ a + R → ok k = false) →
      uploadShardWithRetry ok a R = (none, 1000 * R) := by
  intro R
  induction R with
  | zero =>
    intro a h
    simp only [uploadShardWithRetry]
    rw [h a (Nat.le_refl _) (by omega)]
    rfl
  | succ r ih =>
    intro a h
    simp only [uploadShardWithRetry]
    rw [h a (Nat.le_refl _) (by omega)]
    simp only [Bool.false_eq_true, if_false]
    rw [ih (a + 1) (fun k hk1 hk2 => h k (by omega) (by omega))]
    simp only [Prod.mk.injEq, true_and]
    omega

theorem uploadShardWithRetry_some (ok : Nat → Bool) :
    ∀ (R a j : Nat), (uploadShardWithRetry ok a R).1 = some j →
      a ≤ j ∧ j ≤ a + R ∧ ok j = true ∧ (∀ k, a ≤ k → k < j → ok k = false) ∧
        (uploadShardWithRetry ok a R).2 = 1000 * (j - a) := by
  intro R
  induction R with
  | zero =>
    intro a j h
    simp only [uploadShardWithRetry] at h ⊢
    by_cases hok : ok a
    · rw [if_pos hok] at h ⊢
      simp only [Option.some.injEq] at h
      subst h
      refine ⟨Nat.le_refl _, by omega, hok, fun k hk1 hk2 => by omega, by simp⟩
    · rw [if_neg hok] at h
      simp at h
  | succ r ih =>
    intro a j h
    simp only [uploadShardWithRetry] at h ⊢
    by_cases hok : ok a
    · rw [if_pos hok] at h ⊢
      simp only [Option.some.injEq] at h
      subst h
      refine ⟨Nat.le_refl _, by omega, hok, fun k hk1 hk2 => by omega, by simp⟩
    · rw [if_neg hok] at h ⊢
      simp only at h
      obtain ⟨h1, h2, h3, h4, h5⟩ := ih (a + 1) j h
      refine ⟨by omega, by omega, h3, ?_, ?_⟩
      · intro k hk1 hk2
        by_cases hka : k = a
        · subst hka; simpa using hok
        · exact h4 k (by omega) hk2
      · simp only [h5]
        omega

/-! ### Toy AEAD lemmas (used to discharge the abstract-cipher hypotheses
of the witnesses at concrete inputs) -/

theorem toyDecGCM_toyEncGCM (key iv p : List Nat) :
    toyDecGCM key iv (toyEncGCM key iv p) = some p := by
  unfold toyDecGCM toyEncGCM
  rw [if_neg (by simp)]
  rw [List.getLastD_concat, List.dropLast_concat]
  simp

theorem toyDecGCM_sound (key iv w q : List Nat) (h : toyDecGCM key iv w = some q) :
    w = toyEncGCM key iv q := by
  unfold toyDecGCM at h
  by_cases hw : w = []
  · rw [if_pos hw] at h; simp at h
  · rw [if_neg hw] at h
    by_cases hc : w.getLastD 0 = (key.sum + iv.sum + w.dropLast.sum) % 256
    · rw [if_pos hc] at h
      simp only [Option.some.injEq] at h
      subst h
      unfold toyEncGCM
      conv_lhs => rw [← List.dropLast_append_getLast hw]
      congr 1
      rw [← hc]
      congr 1
      rw [List.getLastD_eq_getLast?, List.getLast?_eq_getLast _ hw]
      rfl
    · rw [if_neg hc] at h; simp at h
/-! ### Upload loop lemmas -/

theorem uploadShards_blobs_grow (c : SubtleCrypto) (key : List Nat) (ivs : Nat → List Nat)
    (outs : Nat → Nat → Bool) :
    ∀ (chunks : List (List Nat)) (i : Nat) (blobs : List (List Nat)),
      ∃ t, (uploadShards c key ivs outs chunks i blobs).1 = blobs ++ t := by
  intro chunks
  induction chunks with
  | nil => intro i blobs; exact ⟨[], by simp [uploadShards]⟩
  | cons ch rest ih =>
    intro i blobs
    simp only [uploadShards]
    match (uploadShardWithRetry (outs i) 0 3).1 with
    | none => exact ⟨[], by simp⟩
    | some k =>
      obtain ⟨t, ht⟩ := ih (i + 1) (blobs ++ [encryptShardBody c key (ivs i) ch])
      exact ⟨encryptShardBody c key (ivs i) ch :: t, by simp [ht]⟩

theorem uploadShards_ok_length (c : SubtleCrypto) (key : List Nat) (ivs : Nat → List Nat)
    (outs : Nat → Nat → Bool) :
    ∀ (chunks : List (List Nat)) (i : Nat) (blobs : List (List Nat)) (urls : List Nat),
      (uploadShards c key ivs outs chunks i blobs).2 = .ok urls →
      urls.length = chunks.length := by
  intro chunks
  induction chunks with
  | nil =>
    intro i blobs urls h
    simp only [uploadShards] at h
    cases h
    rfl
  | cons ch rest ih =>
    intro i blobs urls h
    simp only [uploadShards] at h
    match hr : (uploadShardWithRetry (outs i) 0 3).1 with
    | none => rw [hr] at h; simp at h
    | some k =>
      rw [hr] at h
      simp only at h
      match hres : (uploadShards c key ivs outs rest (i + 1)
          (blobs ++ [encryptShardBody c key (ivs i) ch])).2 with
      | .error e => rw [hres] at h; simp [Except.map] at h
      | .ok urls' =>
        rw [hres] at h
        simp only [Except.map, Except.ok.injEq] at h
        subst h
        simp [ih _ _ _ hres]

theorem uploadShards_decrypt (c : SubtleCrypto) (key : List Nat) (ivs : Nat → List Nat)
    (outs : Nat → Nat → Bool)
    (hiv : ∀ i, (ivs i).length = 12)
    (hrt : ∀ iv p, c.decryptGCM key iv (c.encryptGCM key iv p) = some p) :
    ∀ (chunks : List (List Nat)) (i : Nat) (blobs blobs2 : List (List Nat)) (urls : List Nat),
      uploadShards c key ivs outs chunks i blobs = (blobs2, .ok urls) →
      ∀ (blobsF : List (List Nat)), (∃ t, blobsF = blobs2 ++ t) →
      ∀ (j : Nat),
        (decryptLoop c key (fun _ u => blobsF[u]?) urls j).1 = .ok chunks := by
  intro chunks
  induction chunks with
  | nil =>
    intro i blobs blobs2 urls h blobsF hpre j
    simp only [uploadShards, Prod.mk.injEq] at h
    obtain ⟨h1, h2⟩ := h
    cases h2
    rfl
  | cons ch rest ih =>
    intro i blobs blobs2 urls h blobsF hpre j
    simp only [uploadShards] at h
    match hr : (uploadShardWithRetry (outs i) 0 3).1 with
    | none => rw [hr] at h; simp at h
    | some k =>
      rw [hr] at h
      simp only at h
      match hres : uploadShards c key ivs outs rest (i + 1)
          (blobs ++ [encryptShardBody c key (ivs i) ch]) with
      | (blobsR, rR) =>
        rw [hres] at h
        simp only [Prod.mk.injEq] at h
        obtain ⟨hb2, hurls⟩ := h
        match rR with
        | .error e => simp [Except.map] at hurls
        | .ok urls' =>
          simp only [Except.map, Except.ok.injEq] at hurls
          subst hurls
          -- the head locator points at the body appended before the recursive call
          have hbody : blobsF[blobs.length]? = some (encryptShardBody c key (ivs i) ch) := by
            obtain ⟨t1, ht1⟩ := uploadShards_blobs_grow c key ivs outs rest (i + 1)
              (blobs ++ [encryptShardBody c key (ivs i) ch])
            rw [hres] at ht1
            simp only at ht1
            obtain ⟨t2, ht2⟩ := hpre
            rw [ht2, ← hb2, ht1]
            rw [List.append_assoc, List.append_assoc]
            rw [List.getElem?_append_right (Nat.le_refl _)]
            simp
          simp only [decryptLoop, hbody]
          have hlen : (encryptShardBody c key (ivs i) ch).length ≠ 0 := by
            unfold encryptShardBody
            simp only [List.length_append, hiv i]
            omega
          rw [if_neg hlen]
          have htake : (encryptShardBody c key (ivs i) ch).take 12 = ivs i := by
            unfold encryptShardBody
            rw [← hiv i]
            exact List.take_left ..
          have hdrop : (encryptShardBody c key (ivs i) ch).drop 12 =
              c.encryptGCM key (ivs i) ch := by
            unfold encryptShardBody
            rw [← hiv i]
            exact List.drop_left ..
          rw [htake, hdrop, hrt (ivs i) ch]
          have hrec := ih (i + 1) (blobs ++ [encryptShardBody c key (ivs i) ch]) blobsR urls'
            hres blobsF (by rw [hb2]; exact hpre) (j + 1)
          rw [hrec]
          rfl

/-! ### Code generation and lookup lemmas -/

theorem pickCode_fresh (files : List Manifest) :
    ∀ (rs : List Nat) (code : String), pickCode files rs = some code →
      files.any (fun m => m.code == code) = false := by
  intro rs
  induction rs with
  | nil => intro code h; simp [pickCode] at h
  | cons r rest ih =>
    intro code h
    simp only [pickCode] at h
    by_cases hex : files.any (fun m => m.code == generateCode r)
    · rw [if_pos hex] at h
      exact ih code h
    · rw [if_neg hex] at h
      simp only [Option.some.injEq] at h
      subst h
      simpa using hex

theorem find_cons_self (m : Manifest) (files : List Manifest) :
    (m :: files).find? (fun m' => m'.code == m.code) = some m := by
  simp [List.find?]
/-! ### CBC codec lemmas -/

theorem xorBytes_length (a b : List Nat) : (xorBytes a b).length = min a.length b.length :=
  List.length_zipWith ..

theorem xorBytes_cancel :
    ∀ (a b : List Nat), a.length = b.length → xorBytes (xorBytes a b) b = a := by
  intro a
  induction a with
  | nil => intro b h; cases b <;> simp_all [xorBytes]
  | cons x xs ih =>
    intro b h
    match b with
    | [] => simp at h
    | y :: ys =>
      simp only [xorBytes, List.zipWith_cons_cons, List.cons.injEq]
      constructor
      · rw [Nat.xor_assoc, Nat.xor_self, Nat.xor_zero]
      · exact ih ys (by simpa using h)

theorem cbcEncBlocks_len16 (E : List Nat → List Nat)
    (hE16 : ∀ b, b.length = 16 → (E b).length = 16) :
    ∀ (blocks : List (List Nat)) (prev : List Nat), prev.length = 16 →
      (∀ b ∈ blocks, b.length = 16) →
      ∀ cb ∈ cbcEncBlocks E prev blocks, cb.length = 16 := by
  intro blocks
  induction blocks with
  | nil => intro prev _ _ cb hcb; simp [cbcEncBlocks] at hcb
  | cons blk rest ih =>
    intro prev hprev hall cb hcb
    simp only [cbcEncBlocks, List.mem_cons] at hcb
    have hxor : (xorBytes blk prev).length = 16 := by
      rw [xorBytes_length, hall blk (List.mem_cons_self ..), hprev]
      rfl
    rcases hcb with h | h
    · subst h; exact hE16 _ hxor
    · exact ih (E (xorBytes blk prev)) (hE16 _ hxor)
        (fun b hb => hall b (List.mem_cons_of_mem _ hb)) cb h

theorem cbcDecBlocks_cbcEncBlocks (E D : List Nat → List Nat)
    (hE16 : ∀ b, b.length = 16 → (E b).length = 16)
    (hinv : ∀ b, b.length = 16 → D (E b) = b) :
    ∀ (blocks : List (List Nat)) (prev : List Nat), prev.length = 16 →
      (∀ b ∈ blocks, b.length = 16) →
      cbcDecBlocks D prev (cbcEncBlocks E prev blocks) = blocks := by
  intro blocks
  induction blocks with
  | nil => intro prev _ _; rfl
  | cons blk rest ih =>
    intro prev hprev hall
    simp only [cbcEncBlocks, cbcDecBlocks, List.cons.injEq]
    have hxor : (xorBytes blk prev).length = 16 := by
      rw [xorBytes_length, hall blk (List.mem_cons_self ..), hprev]
      rfl
    constructor
    · rw [hinv _ hxor]
      exact xorBytes_cancel blk prev (by rw [hall blk (List.mem_cons_self ..), hprev])
    · exact ih (E (xorBytes blk prev)) (hE16 _ hxor)
        (fun b hb => hall b (List.mem_cons_of_mem _ hb))

theorem flatten_length_mod (S : Nat) :
    ∀ (bls : List (List Nat)), (∀ b ∈ bls, b.length = S) → bls.flatten.length % S = 0 := by
  intro bls
  induction bls with
  | nil => intro _; simp
  | cons b rest ih =>
    intro hall
    simp only [List.flatten_cons, List.length_append, hall b (List.mem_cons_self ..)]
    rw [Nat.add_mod_left]
    exact ih (fun x hx => hall x (List.mem_cons_of_mem _ hx))

theorem chunksOf_flatten_blocks (S : Nat) (hS : S ≠ 0) :
    ∀ (bls : List (List Nat)), (∀ b ∈ bls, b.length = S) →
      chunksOf S bls.flatten = bls := by
  intro bls
  induction bls with
  | nil => intro _; rfl
  | cons b rest ih =>
    intro hall
    have hb : b.length = S := hall b (List.mem_cons_self ..)
    have hbne : b ≠ [] := by
      intro h; rw [h] at hb; simp at hb; omega
    simp only [List.flatten_cons]
    have hne : b ++ rest.flatten ≠ [] := by
      intro h
      exact hbne (List.append_eq_nil.mp h).1
    rw [chunksOf_cons S hS _ hne, List.take_left' hb, List.drop_left' hb,
        ih (fun x hx => hall x (List.mem_cons_of_mem _ hx))]

theorem pkcs7unpad_pkcs7pad (p : List Nat) : pkcs7unpad (pkcs7pad p) = some p := by
  unfold pkcs7pad pkcs7unpad
  have hn : 1 ≤ 16 - p.length % 16 ∧ 16 - p.length % 16 ≤ 16 := by omega
  have hrep : List.replicate (16 - p.length % 16) (16 - p.length % 16) ≠ [] := by
    simp only [ne_eq, List.replicate_eq_nil_iff]
    omega
  have hlast : (p ++ List.replicate (16 - p.length % 16) (16 - p.length % 16)).getLastD 0 =
      16 - p.length % 16 := by
    match hm : 16 - p.length % 16, (by omega : 0 < 16 - p.length % 16) with
    | m + 1, _ =>
      rw [List.replicate_succ']
      rw [← List.append_assoc, List.getLastD_concat]
  rw [hlast]
  have hlen : (p ++ List.replicate (16 - p.length % 16) (16 - p.length % 16)).length =
      p.length + (16 - p.length % 16) := by
    simp
  rw [if_pos]
  · congr 1
    rw [hlen, (by omega : p.length + (16 - p.length % 16) - (16 - p.length % 16) = p.length),
        List.take_left]
  · refine ⟨hn.1, hn.2, by rw [hlen]; omega, ?_⟩
    rw [hlen, (by omega : p.length + (16 - p.length % 16) - (16 - p.length % 16) = p.length),
        List.drop_left]
    simp

theorem pkcs7pad_blocks16 (p : List Nat) :
    ∀ b ∈ chunksOf 16 (pkcs7pad p), b.length = 16 := by
  have hmod : (pkcs7pad p).length % 16 = 0 := by
    unfold pkcs7pad
    simp only [List.length_append, List.length_replicate]
    omega
  -- every chunk of a block-aligned list has length exactly 16
  intro b hb
  have h1 := (chunksOf_mem 16 (by omega) (pkcs7pad p) b hb).1
  have h2 := (chunksOf_mem 16 (by omega) (pkcs7pad p) b hb).2
  -- use flatten to recover alignment: not direct; do an induction instead
  clear h1 h2
  revert b hb
  have : ∀ (n : Nat) (l : List Nat), l.length ≤ n → l.length % 16 = 0 →
      ∀ b ∈ chunksOf 16 l, b.length = 16 := by
    intro n
    induction n with
    | zero =>
      intro l hl _ b hb
      have : l = [] := List.eq_nil_of_length_eq_zero (Nat.le_zero.mp hl)
      subst this; simp [chunksOf_nil] at hb
    | succ n ih =>
      intro l hl hmod b hb
      match l with
      | [] => simp [chunksOf_nil] at hb
      | x :: xs =>
        rw [chunksOf_cons 16 (by omega) _ (by simp)] at hb
        have hlen16 : 16 ≤ (x :: xs).length := by
          simp only [List.length_cons] at *
          omega
        rcases List.mem_cons.mp hb with h | h
        · subst h
          rw [List.length_take]
          omega
        · apply ih ((x :: xs).drop 16)
            (by simp only [List.length_drop, List.length_cons] at *; omega)
            (by simp only [List.length_drop]; omega) b h
  exact fun b hb => this (pkcs7pad p).length (pkcs7pad p) (Nat.le_refl _) hmod b hb

theorem cbcDecrypt_cbcEncrypt (E D : List Nat → List Nat)
    (hE16 : ∀ b, b.length = 16 → (E b).length = 16)
    (hinv : ∀ b, b.length = 16 → D (E b) = b)
    (iv p : List Nat) (hiv : iv.length = 16) :
    cbcDecrypt D iv (cbcEncrypt E iv p) = some p := by
  unfold cbcEncrypt cbcDecrypt
  have hblocks := pkcs7pad_blocks16 p
  have hct16 := cbcEncBlocks_len16 E hE16 (chunksOf 16 (pkcs7pad p)) iv hiv hblocks
  rw [if_pos (flatten_length_mod 16 _ hct16)]
  rw [chunksOf_flatten_blocks 16 (by omega) _ hct16]
  rw [cbcDecBlocks_cbcEncBlocks E D hE16 hinv _ iv hiv hblocks]
  rw [chunksOf_flatten 16 (by omega)]
  exact pkcs7unpad_pkcs7pad p

/-- C10: the server-side whole-file codec round-trips.  For every byte
buffer and password, with any 64-byte salt and 16-byte IV, and any block
cipher satisfying the block-cipher contract for the key
`kdf pw salt 100000 32` (16-byte blocks, `D key` inverting `E key`),
`decrypt` re-derives the key from the embedded salt with exactly the same
KDF arguments and inverts `salt(64) || iv(16) || aes-256-cbc ciphertext`
back to the original buffer. -/
theorem Server.decrypt_encrypt (E D : List Nat → List Nat → List Nat)
    (kdf : String → List Nat → Nat → Nat → List Nat) (pw : String)
    (salt iv buffer : List Nat) (hsalt : salt.length = 64) (hiv : iv.length = 16)
    (hE16 : ∀ b, b.length = 16 → (E (kdf pw salt 100000 32) b).length = 16)
    (hinv : ∀ b, b.length = 16 → D (kdf pw salt 100000 32) (E (kdf pw salt 100000 32) b) = b) :
    Server.decrypt D kdf pw (Server.encrypt E kdf pw salt iv buffer) = some buffer := by
  unfold Server.encrypt Server.decrypt
  have htake : (salt ++ (iv ++ cbcEncrypt (E (kdf pw salt 100000 32)) iv buffer)).take 64
      = salt := by
    rw [← hsalt]
    exact List.take_left ..
  have hdrop64 : (salt ++ (iv ++ cbcEncrypt (E (kdf pw salt 100000 32)) iv buffer)).drop 64
      = iv ++ cbcEncrypt (E (kdf pw salt 100000 32)) iv buffer := by
    rw [← hsalt]
    exact List.drop_left ..
  rw [List.append_assoc, htake, hdrop64]
  have htake16 : (iv ++ cbcEncrypt (E (kdf pw salt 100000 32)) iv buffer).take 16 = iv := by
    rw [← hiv]
    exact List.take_left ..
  have hdrop80 : (salt ++ (iv ++ cbcEncrypt (E (kdf pw salt 100000 32)) iv buffer)).drop 80
      = cbcEncrypt (E (kdf pw salt 100000 32)) iv buffer := by
    rw [(by norm_num : (80 : Nat) = 64 + 16), ← List.drop_drop, hdrop64, ← hiv]
    exact List.drop_left ..
  rw [htake16, hdrop80]
  exact cbcDecrypt_cbcEncrypt _ _ hE16 hinv iv buffer hiv
/-! ### Loop instrumentation lemmas (part_002 retrieval loop) -/

theorem decryptLoop_fetch_noStore (c : SubtleCrypto) (key : List Nat)
    (store : CacheMode → Nat → Option (List Nat)) :
    ∀ (parts : List Nat) (i : Nat),
      ∀ e ∈ (decryptLoop c key store parts i).2.1, e.1 = CacheMode.noStore := by
  intro parts
  induction parts with
  | nil => intro i e he; simp [decryptLoop] at he
  | cons u rest ih =>
    intro i e he
    simp only [decryptLoop] at he
    match hs : store .noStore u with
    | none =>
      rw [hs] at he
      simp only [List.mem_singleton] at he
      subst he; rfl
    | some buf =>
      rw [hs] at he
      simp only [] at he
      by_cases hb : buf.length = 0
      · rw [if_pos hb] at he
        simp only [List.mem_singleton] at he
        subst he; rfl
      · rw [if_neg hb] at he
        match hd : c.decryptGCM key (buf.take 12) (buf.drop 12) with
        | none =>
          rw [hd] at he
          simp only [List.mem_singleton] at he
          subst he; rfl
        | some p =>
          rw [hd] at he
          simp only [List.mem_cons] at he
          rcases he with h | h
          · subst h; rfl
          · exact ih (i + 1) e h

theorem decryptLoop_no_empty_decrypt (c : SubtleCrypto) (key : List Nat)
    (store : CacheMode → Nat → Option (List Nat)) :
    ∀ (parts : List Nat) (i : Nat), [] ∉ (decryptLoop c key store parts i).2.2 := by
  intro parts
  induction parts with
  | nil => intro i h; simp [decryptLoop] at h
  | cons u rest ih =>
    intro i h
    simp only [decryptLoop] at h
    match hs : store .noStore u with
    | none => rw [hs] at h; simp at h
    | some buf =>
      rw [hs] at h
      simp only [] at h
      by_cases hb : buf.length = 0
      · rw [if_pos hb] at h; simp at h
      · rw [if_neg hb] at h
        match hd : c.decryptGCM key (buf.take 12) (buf.drop 12) with
        | none =>
          rw [hd] at h
          simp only [List.mem_singleton] at h
          exact hb (by rw [← h]; rfl)
        | some p =>
          rw [hd] at h
          simp only [List.mem_cons] at h
          rcases h with h | h
          · exact hb (by rw [← h]; rfl)
          · exact ih (i + 1) h

/-! ### Claim theorems -/

/-- C3: for every non-empty plaintext the splitting policy produces exactly
`ceil(len / SHARD_SIZE)` shards (`totalShards`); every shard is non-empty and
at most `SHARD_SIZE` long; every shard except possibly the last is exactly
`SHARD_SIZE` long; and the shards concatenate back to the plaintext, so they
are consecutive.  In particular a length that is an exact multiple of
`SHARD_SIZE` yields no trailing empty shard. -/
theorem shard_split_spec (P : List Nat) (hP : P ≠ []) :
    (chunksOf SHARD_SIZE P).length = totalShards P.length ∧
    (∀ ch ∈ chunksOf SHARD_SIZE P, ch ≠ [] ∧ ch.length ≤ SHARD_SIZE) ∧
    (∀ i, i + 1 < (chunksOf SHARD_SIZE P).length →
      ((chunksOf SHARD_SIZE P).getD i []).length = SHARD_SIZE) ∧
    (chunksOf SHARD_SIZE P).flatten = P := by
  have hS : SHARD_SIZE ≠ 0 := by unfold SHARD_SIZE; norm_num
  exact ⟨chunksOf_length _ hS P hP, chunksOf_mem _ hS P, chunksOf_getD _ hS P,
    chunksOf_flatten _ hS P⟩

/-- Witness for C3: the splitting facts instantiated at the concrete
plaintext `[1, 2, 3]`. -/
theorem shard_split_spec_witness :
    (chunksOf SHARD_SIZE [1, 2, 3]).length = totalShards ([1, 2, 3] : List Nat).length ∧
    (∀ ch ∈ chunksOf SHARD_SIZE [1, 2, 3], ch ≠ [] ∧ ch.length ≤ SHARD_SIZE) ∧
    (∀ i, i + 1 < (chunksOf SHARD_SIZE [1, 2, 3]).length →
      ((chunksOf SHARD_SIZE [1, 2, 3]).getD i []).length = SHARD_SIZE) ∧
    (chunksOf SHARD_SIZE [1, 2, 3]).flatten = [1, 2, 3] :=
  shard_split_spec [1, 2, 3] (by decide)
/-- C5: when the manifest exists but the supplied password does not verify
against the stored bcrypt hash, the whole retrieval fails at the
wrong-password gate of `retrieve-meta`: the result is the `AuthError`
("Wrong password"), no shard is fetched (empty fetch trace) and nothing is
handed to decryption (empty decrypt trace) — the locator list and the
derived key are only ever touched after the check succeeds. -/
theorem auth_gate_before_fetch (c : SubtleCrypto) (bcompare : String → String → Bool)
    (files : List Manifest) (store : CacheMode → Nat → Option (List Nat))
    (code pw : String) (m : Manifest)
    (hfind : files.find? (fun m' => m'.code == code) = some m)
    (hpw : bcompare pw m.passwordHash = false) :
    retrieveRun c bcompare files store code pw = (.error .wrongPassword, [], []) := by
  unfold retrieveRun
  rw [hfind]
  simp only []
  rw [hpw]
  simp

/-- Witness for C5: a concrete manifest, a wrong password, the toy
verifier. -/
theorem auth_gate_before_fetch_witness :
    retrieveRun toySubtle toyCompare
      [{ code := "123456", passwordHash := "right", parts := [0, 1],
         originalName := "n", mimeType := "m", salt := [], iv := "sharded" }]
      (fun _ _ => some [1]) "123456" "wrong" = (.error .wrongPassword, [], []) :=
  auth_gate_before_fetch toySubtle toyCompare _ _ "123456" "wrong" _ (by rfl) (by rfl)

/-- C4: the wire body the upload loop assembles for one shard starts with
the 12-byte IV and continues with exactly the AES-GCM output
(ciphertext plus tag), and the retrieval step recovers the IV as the first
12 bytes, the ciphertext as the rest, and — given only the key and assuming
the AEAD round-trip contract for this shard — decrypts the body back to the
chunk, so every shard is self-describing and independently decryptable. -/
theorem shard_wire_format (c : SubtleCrypto) (key iv chunk : List Nat) (i : Nat)
    (hiv : iv.length = 12)
    (hrt : c.decryptGCM key iv (c.encryptGCM key iv chunk) = some chunk) :
    (encryptShardBody c key iv chunk).take 12 = iv ∧
    (encryptShardBody c key iv chunk).drop 12 = c.encryptGCM key iv chunk ∧
    decryptShardStep c key i (some (encryptShardBody c key iv chunk)) = .ok chunk := by
  have htake : (encryptShardBody c key iv chunk).take 12 = iv := by
    unfold encryptShardBody
    rw [← hiv]
    exact List.take_left ..
  have hdrop : (encryptShardBody c key iv chunk).drop 12 = c.encryptGCM key iv chunk := by
    unfold encryptShardBody
    rw [← hiv]
    exact List.drop_left ..
  refine ⟨htake, hdrop, ?_⟩
  unfold decryptShardStep
  simp only []
  rw [if_neg (by unfold encryptShardBody; simp only [List.length_append, hiv]; omega)]
  rw [htake, hdrop, hrt]

/-- Witness for C4 at a concrete key, IV and chunk with the toy AEAD. -/
theorem shard_wire_format_witness :
    (encryptShardBody toySubtle [3] (List.replicate 12 1) [9, 9]).take 12 =
      List.replicate 12 1 ∧
    (encryptShardBody toySubtle [3] (List.replicate 12 1) [9, 9]).drop 12 =
      toySubtle.encryptGCM [3] (List.replicate 12 1) [9, 9] ∧
    decryptShardStep toySubtle [3] 1
      (some (encryptShardBody toySubtle [3] (List.replicate 12 1) [9, 9])) = .ok [9, 9] :=
  shard_wire_format toySubtle [3] (List.replicate 12 1) [9, 9] 1 (by rfl)
    (toyDecGCM_toyEncGCM [3] (List.replicate 12 1) [9, 9])
/-- A list followed by a singleton equals a two-element list only in the
obvious way. -/
theorem append_singleton_eq_pair (q : List Nat) (a x y : Nat)
    (h : q ++ [a] = [x, y]) : q = [x] ∧ a = y := by
  match q with
  | [] => simp at h
  | [b] =>
    simp only [List.cons_append, List.nil_append, List.cons.injEq, and_true] at h
    exact ⟨by rw [h.1], h.2⟩
  | b1 :: b2 :: bs =>
    have := congrArg List.length h
    simp at this

/-- The toy AEAD rejects the concrete tampered pair produced by flipping the
first ciphertext byte in the C2 witness. -/
theorem toy_forge_pair (q : List Nat) :
    ([7, 5] : List Nat) ≠ toyEncGCM [0] (List.replicate 12 0) q := by
  intro h
  unfold toyEncGCM at h
  obtain ⟨hq, hc⟩ := append_singleton_eq_pair q _ 7 5 h.symm
  subst hq
  exact absurd hc (by decide)

/-- C2 (amended): for the sharded AES-GCM path, under the AEAD authenticity
idealization — decryption under a key succeeds only on exact outputs of
encryption under that key and nonce (`hsound`), and the tampered wire is not
such an output (`hforge`, the no-forgery assumption, which AES-GCM provides
for byte flips, wrong keys and truncations except with negligible
probability) — flipping any single byte `j` of a genuine shard body to a
different value `b` makes the retrieval step fail with the `IntegrityError`
throw ("Wrong Password or Data Corrupt"); and whenever the step does succeed
it returns the full exact plaintext of the fetched wire, never partial or
different data.  The server-side `aes-256-cbc` whole-file codec of server.js
is unauthenticated and does not satisfy the claim — see the
counterexample. -/
theorem shard_tamper_integrity (c : SubtleCrypto) (key iv p : List Nat) (i j b : Nat)
    (hiv : iv.length = 12)
    (hj : j < (encryptShardBody c key iv p).length)
    (hb : b ≠ (encryptShardBody c key iv p).getD j 0)
    (hsound : ∀ n w q, c.decryptGCM key n w = some q → w = c.encryptGCM key n q)
    (hforge : ∀ q, ((encryptShardBody c key iv p).set j b).drop 12 ≠
        c.encryptGCM key (((encryptShardBody c key iv p).set j b).take 12) q) :
    decryptShardStep c key i (some ((encryptShardBody c key iv p).set j b)) =
      .error .integrity ∧
    (∀ w q, decryptShardStep c key i (some w) = .ok q →
      w.drop 12 = c.encryptGCM key (w.take 12) q) := by
  constructor
  · unfold decryptShardStep
    simp only []
    rw [if_neg (by
      rw [List.length_set]
      unfold encryptShardBody
      simp only [List.length_append, hiv]
      omega)]
    match hd : c.decryptGCM key (((encryptShardBody c key iv p).set j b).take 12)
        (((encryptShardBody c key iv p).set j b).drop 12) with
    | none => rfl
    | some q => exact absurd (hsound _ _ _ hd) (hforge q)
  · intro w q hw
    unfold decryptShardStep at hw
    simp only [] at hw
    by_cases hlen : w.length = 0
    · rw [if_pos hlen] at hw
      simp at hw
    · rw [if_neg hlen] at hw
      match hd : c.decryptGCM key (w.take 12) (w.drop 12) with
      | none => rw [hd] at hw; simp at hw
      | some q' =>
        rw [hd] at hw
        simp only [Except.ok.injEq] at hw
        subst hw
        exact hsound _ _ _ hd

/-- Witness for C2's amended theorem: toy AEAD, key `[0]`, zero IV,
plaintext `[5]`; flipping wire byte 12 (the first ciphertext byte, value 5)
to 7 yields the integrity error. -/
theorem shard_tamper_integrity_witness :
    decryptShardStep toySubtle [0] 1
      (some ((encryptShardBody toySubtle [0] (List.replicate 12 0) [5]).set 12 7)) =
      .error .integrity ∧
    (∀ w q, decryptShardStep toySubtle [0] 1 (some w) = .ok q →
      w.drop 12 = toySubtle.encryptGCM [0] (w.take 12) q) :=
  shard_tamper_integrity toySubtle [0] (List.replicate 12 0) [5] 1 12 7 (by rfl)
    (by decide) (by decide)
    (fun n w q h => toyDecGCM_sound [0] n w q h)
    (fun q => toy_forge_pair q)

/-- Counterexample to C2 as stated: the server.js whole-file codec
(`aes-256-cbc`, unauthenticated, here over the identity block cipher as a
legitimate instance of the abstract cipher parameter).  A 17-byte plaintext
of zeros is encrypted (64-byte zero salt, zero IV); flipping wire byte 80 —
the first ciphertext byte, originally 0 — to 1 does NOT make decryption
fail: it succeeds and returns a 17-byte output that differs from the
original plaintext, a silent corruption instead of an `IntegrityError`. -/
theorem cbc_tamper_silent_corruption :
    (Server.encrypt idBlockCipher toyKdf "pw" (List.replicate 64 0) (List.replicate 16 0)
        (List.replicate 17 0)).getD 80 0 = 0 ∧
    Server.decrypt idBlockCipher toyKdf "pw"
        ((Server.encrypt idBlockCipher toyKdf "pw" (List.replicate 64 0)
            (List.replicate 16 0) (List.replicate 17 0)).set 80 1) =
      some (1 :: (List.replicate 15 0 ++ [1])) ∧
    (1 :: (List.replicate 15 0 ++ [1]) : List Nat) ≠ List.replicate 17 0 := by
  decide
/-- C6: the retry wrapper is called with the fixed budget `retries = 3`:
when the initial attempt and all 3 retries fail the result is terminal
(`none`) after exactly the 3 fixed 1000 ms inter-attempt delays; when
attempt `j` is the first to succeed then `j ≤ 3`, all earlier attempts
failed and exactly `j` delays of 1000 ms were slept; and a shard whose
budget is exhausted aborts the whole upload loop with the terminal error
naming that shard's (1-based) index. -/
theorem retry_budget_spec (ok : Nat → Bool) (c : SubtleCrypto) (key : List Nat)
    (ivs : Nat → List Nat) (outs : Nat → Nat → Bool) (ch : List Nat)
    (rest : List (List Nat)) (i : Nat) (blobs : List (List Nat)) :
    ((∀ k, k ≤ 3 → ok k = false) → uploadShardWithRetry ok 0 3 = (none, 3000)) ∧
    (∀ j, (uploadShardWithRetry ok 0 3).1 = some j →
      j ≤ 3 ∧ ok j = true ∧ (∀ k, k < j → ok k = false) ∧
      (uploadShardWithRetry ok 0 3).2 = 1000 * j) ∧
    ((∀ k, k ≤ 3 → outs i k = false) →
      (uploadShards c key ivs outs (ch :: rest) i blobs).2 =
        .error (.shardFailed (i + 1))) := by
  refine ⟨?_, ?_, ?_⟩
  · intro h
    exact uploadShardWithRetry_fail ok 3 0 (fun k hk1 hk2 => h k (by omega))
  · intro j hj
    obtain ⟨h1, h2, h3, h4, h5⟩ := uploadShardWithRetry_some ok 3 0 j hj
    exact ⟨by omega, h3, fun k hk => h4 k (by omega) hk, by rw [h5, Nat.sub_zero]⟩
  · intro h
    have hfail := uploadShardWithRetry_fail (outs i) 3 0 (fun k hk1 hk2 => h k (by omega))
    simp only [uploadShards, hfail]

/-- Witness for C6: with every attempt failing the wrapper exhausts after
3000 ms of delay and the single-shard upload aborts with the shard index. -/
theorem retry_budget_spec_witness :
    uploadShardWithRetry (fun _ => false) 0 3 = (none, 3000) ∧
    (uploadShards toySubtle [] (fun _ => List.replicate 12 0) (fun _ _ => false)
      [[1]] 0 []).2 = .error (.shardFailed 1) :=
  ⟨(retry_budget_spec (fun _ => false) toySubtle [] (fun _ => List.replicate 12 0)
      (fun _ _ => false) [1] [] 0 []).1 (fun _ _ => rfl),
   (retry_budget_spec (fun _ => false) toySubtle [] (fun _ => List.replicate 12 0)
      (fun _ _ => false) [1] [] 0 []).2.2 (fun _ _ => rfl)⟩

/-- C7: the manifest write is the last step of the upload sequence.  If the
sequence fails (a shard exhausted its retries, or no code could be drawn)
the `File` collection is exactly as before: no manifest was committed.  If
it succeeds, exactly one manifest was committed, and its locator list has
exactly `totalShards` entries — one per produced shard — so no committed
manifest ever references fewer shards than the file's full shard count. -/
theorem manifest_commit_integrity (c : SubtleCrypto) (bhash : String → String)
    (ivs : Nat → List Nat) (outs : Nat → Nat → Bool) (rs : List Nat)
    (fileSalt : List Nat) (pw name mime : String) (P : List Nat) (st : ServerState) :
    (∀ e, (uploadRun c bhash ivs outs rs fileSalt pw name mime P st).2 = .error e →
      (uploadRun c bhash ivs outs rs fileSalt pw name mime P st).1.files = st.files) ∧
    (∀ st' code, uploadRun c bhash ivs outs rs fileSalt pw name mime P st =
        (st', .ok code) →
      ∃ m, st'.files = m :: st.files ∧ m.parts.length = totalShards P.length) := by
  have hS : SHARD_SIZE ≠ 0 := by unfold SHARD_SIZE; norm_num
  have hcount : (chunksOf SHARD_SIZE P).length = totalShards P.length := by
    by_cases hP : P = []
    · subst hP
      simp [chunksOf_nil, totalShards, SHARD_SIZE]
    · exact chunksOf_length _ hS P hP
  constructor
  · intro e herr
    unfold uploadRun at herr ⊢
    simp only [] at herr ⊢
    cases hres : (uploadShards c (c.deriveKey pw fileSalt) ivs outs
        (chunksOf SHARD_SIZE P) 0 st.blobs).2 with
    | error e' => rfl
    | ok urls =>
      rw [hres] at herr
      simp only [] at herr
      cases hpick : pickCode st.files rs with
      | none => rfl
      | some cd =>
        rw [hpick] at herr
        simp at herr
  · intro st' code hrun
    unfold uploadRun at hrun
    simp only [] at hrun
    cases hres : (uploadShards c (c.deriveKey pw fileSalt) ivs outs
        (chunksOf SHARD_SIZE P) 0 st.blobs).2 with
    | error e' => rw [hres] at hrun; simp at hrun
    | ok urls =>
      rw [hres] at hrun
      simp only [] at hrun
      cases hpick : pickCode st.files rs with
      | none => rw [hpick] at hrun; simp at hrun
      | some cd =>
        rw [hpick] at hrun
        simp only [Prod.mk.injEq, Except.ok.injEq] at hrun
        obtain ⟨hst, hcd⟩ := hrun
        refine ⟨{ code := cd, passwordHash := bhash pw, parts := urls,
                  originalName := name, mimeType := mime,
                  salt := bytesToHex fileSalt, iv := "sharded" }, ?_, ?_⟩
        · rw [← hst]
        · show urls.length = totalShards P.length
          rw [uploadShards_ok_length c (c.deriveKey pw fileSalt) ivs outs
            (chunksOf SHARD_SIZE P) 0 st.blobs urls hres, hcount]

/-- Witness for C7: the success branch at a concrete run — the committed
manifest holds exactly one locator for the one shard of `[1, 2, 3]`. -/
theorem manifest_commit_integrity_witness :
    ∃ m, (uploadRun toySubtle toyHash (fun _ => List.replicate 12 0) (fun _ _ => true) [0]
        (List.replicate 16 0) "secret" "f.txt" "text/plain" [1, 2, 3]
        { files := [], blobs := [] }).1.files = m :: ([] : List Manifest) ∧
      m.parts.length = totalShards ([1, 2, 3] : List Nat).length :=
  (manifest_commit_integrity toySubtle toyHash (fun _ => List.replicate 12 0)
      (fun _ _ => true) [0] (List.replicate 16 0) "secret" "f.txt" "text/plain" [1, 2, 3]
      { files := [], blobs := [] }).2
    (uploadRun toySubtle toyHash (fun _ => List.replicate 12 0) (fun _ _ => true) [0]
      (List.replicate 16 0) "secret" "f.txt" "text/plain" [1, 2, 3]
      { files := [], blobs := [] }).1
    "100000" (by rfl)
/-- C9 (amended): in the part_002 retrieval loop every shard fetch is
performed with `cache: "no-store"`; a zero-byte body is rejected with the
"Shard is empty" error before any cryptography runs, so the empty buffer is
never among the buffers handed to `crypto.subtle.decrypt`.  The earlier
part_004 proxy path satisfies neither property — see the counterexample. -/
theorem retrieval_fetch_guard (c : SubtleCrypto) (key : List Nat)
    (store : CacheMode → Nat → Option (List Nat)) (parts : List Nat) (i j : Nat) :
    (∀ e ∈ (decryptLoop c key store parts i).2.1, e.1 = CacheMode.noStore) ∧
    [] ∉ (decryptLoop c key store parts i).2.2 ∧
    decryptShardStep c key j (some []) = .error (.emptyShard j) :=
  ⟨decryptLoop_fetch_noStore c key store parts i,
   decryptLoop_no_empty_decrypt c key store parts i,
   rfl⟩

/-- Counterexample to C9 as stated: the part_004 proxy retrieval loop
fetches with the default cache mode (not `no-store`) and, on a zero-byte
body, hands the empty buffer straight to decryption instead of failing the
fetch. -/
theorem part004_empty_body_decrypted :
    (decryptLoopV4 toySubtle [0] (fun _ _ => some []) [0] 0).2.2 = [[]] ∧
    (decryptLoopV4 toySubtle [0] (fun _ _ => some []) [0] 0).2.1 =
      [(CacheMode.defaultCache, 0)] := by
  decide

/-- C8: the part_001 upload route commits `generateCode()` with no
uniqueness check (its own comment says the collision-check loop still needs
to be added), so an existing manifest's code can be committed a second time:
with the store already holding code "100000" and the random draw mapping to
100000, the route inserts a duplicate "100000".  The server.js /
`finalize-upload` iterations do carry the check: on the same draws the loop
rejects the colliding draw and commits the fresh "100001" instead. -/
theorem part001_code_collision :
    generateCode 0 = "100000" ∧
    (uploadCommitV1 toyHash 0 "pw" "url" "pid" "name"
        [{ code := "100000", passwordHash := "h", cloudinaryUrl := "u",
           cloudinaryPublicId := "p", originalName := "n" }]).map
      (fun f => f.code) = ["100000", "100000"] ∧
    pickCode [{ code := "100000", passwordHash := "h", parts := [],
                originalName := "n", mimeType := "m", salt := [], iv := "sharded" }]
      [0, 1] = some "100001" := by
  decide
/-- Witness for C10: concrete salt, IV and buffer over the identity block
cipher and toy KDF. -/
theorem server_codec_roundtrip_witness :
    Server.decrypt idBlockCipher toyKdf "pw"
      (Server.encrypt idBlockCipher toyKdf "pw" (List.replicate 64 5)
        (List.replicate 16 6) [1, 2, 3]) = some [1, 2, 3] :=
  Server.decrypt_encrypt idBlockCipher idBlockCipher toyKdf "pw" (List.replicate 64 5)
    (List.replicate 16 6) [1, 2, 3] (by rfl) (by rfl) (fun b hb => hb) (fun b _ => rfl)

/-- C1: the end-to-end round trip of the sharded pipeline.  If the upload
sequence (split into `SHARD_SIZE` chunks, derive the key from the password
and the random 16-byte salt, AES-GCM-encrypt each chunk with its fresh
12-byte IV, upload the bodies in order, commit the manifest) succeeds with
retrieval code `code`, then the retrieval sequence against the resulting
state (re-derive the key from the password and the hex-persisted salt,
fetch and decrypt each shard in manifest order, concatenate) returns
exactly the original plaintext `P`, for any plaintext with
`0 < len ≤ 10 * SHARD_SIZE`, any password, any AEAD implementation
satisfying the round-trip contract under the derived key, and any bcrypt
implementation accepting its own hash. -/
theorem sharded_roundtrip (c : SubtleCrypto) (bhash : String → String)
    (bcompare : String → String → Bool) (ivs : Nat → List Nat) (outs : Nat → Nat → Bool)
    (rs : List Nat) (fileSalt : List Nat) (pw name mime : String) (P : List Nat)
    (st st' : ServerState) (code : String)
    (hP : 0 < P.length) (hP10 : P.length ≤ 10 * SHARD_SIZE)
    (hiv : ∀ i, (ivs i).length = 12)
    (hsalt : ∀ b ∈ fileSalt, b < 256)
    (hrt : ∀ iv p, c.decryptGCM (c.deriveKey pw fileSalt) iv
        (c.encryptGCM (c.deriveKey pw fileSalt) iv p) = some p)
    (hcmp : bcompare pw (bhash pw) = true)
    (hrun : uploadRun c bhash ivs outs rs fileSalt pw name mime P st = (st', .ok code)) :
    (retrieveRun c bcompare st'.files (fun _ u => st'.blobs[u]?) code pw).1 = .ok P := by
  have hS : SHARD_SIZE ≠ 0 := by unfold SHARD_SIZE; norm_num
  unfold uploadRun at hrun
  simp only [] at hrun
  cases hres : (uploadShards c (c.deriveKey pw fileSalt) ivs outs
      (chunksOf SHARD_SIZE P) 0 st.blobs).2 with
  | error e => rw [hres] at hrun; simp at hrun
  | ok urls =>
    rw [hres] at hrun
    simp only [] at hrun
    cases hpick : pickCode st.files rs with
    | none => rw [hpick] at hrun; simp at hrun
    | some cd =>
      rw [hpick] at hrun
      simp only [Prod.mk.injEq, Except.ok.injEq] at hrun
      obtain ⟨hst, hcd⟩ := hrun
      subst hcd
      subst hst
      unfold retrieveRun
      simp only []
      rw [List.find?_cons_of_pos _ (by simp)]
      simp only []
      rw [hcmp]
      simp only [if_true]
      rw [hexToBytes_bytesToHex fileSalt hsalt]
      have hpair : uploadShards c (c.deriveKey pw fileSalt) ivs outs
          (chunksOf SHARD_SIZE P) 0 st.blobs =
          ((uploadShards c (c.deriveKey pw fileSalt) ivs outs
            (chunksOf SHARD_SIZE P) 0 st.blobs).1, Except.ok urls) := by
        rw [← hres]
      have hloop := uploadShards_decrypt c (c.deriveKey pw fileSalt) ivs outs hiv hrt
        (chunksOf SHARD_SIZE P) 0 st.blobs
        (uploadShards c (c.deriveKey pw fileSalt) ivs outs
          (chunksOf SHARD_SIZE P) 0 st.blobs).1 urls hpair
        (uploadShards c (c.deriveKey pw fileSalt) ivs outs
          (chunksOf SHARD_SIZE P) 0 st.blobs).1 ⟨[], by simp⟩ 0
      rw [hloop]
      simp only [Except.map]
      rw [chunksOf_flatten SHARD_SIZE hS P]

/-- Witness for C1: toy crypto, all-success transport, plaintext `[1, 2, 3]`,
password "secret"; the retrieval of code "100000" returns the plaintext. -/
theorem sharded_roundtrip_witness :
    (retrieveRun toySubtle toyCompare
      (uploadRun toySubtle toyHash (fun _ => List.replicate 12 0) (fun _ _ => true) [0]
        (List.replicate 16 0) "secret" "f.txt" "text/plain" [1, 2, 3]
        { files := [], blobs := [] }).1.files
      (fun _ u => (uploadRun toySubtle toyHash (fun _ => List.replicate 12 0)
        (fun _ _ => true) [0] (List.replicate 16 0) "secret" "f.txt" "text/plain"
        [1, 2, 3] { files := [], blobs := [] }).1.blobs[u]?)
      "100000" "secret").1 = .ok [1, 2, 3] :=
  sharded_roundtrip toySubtle toyHash toyCompare (fun _ => List.replicate 12 0)
    (fun _ _ => true) [0] (List.replicate 16 0) "secret" "f.txt" "text/plain" [1, 2, 3]
    { files := [], blobs := [] }
    (uploadRun toySubtle toyHash (fun _ => List.replicate 12 0) (fun _ _ => true) [0]
      (List.replicate 16 0) "secret" "f.txt" "text/plain" [1, 2, 3]
      { files := [], blobs := [] }).1
    "100000" (by decide) (by decide) (fun _ => rfl) (by decide)
    (fun iv p => toyDecGCM_toyEncGCM (toyKey "secret" (List.replicate 16 0)) iv p)
    (by rfl) (by rfl)
